import Mathlib

/-!
Verification of the retrieval core of the `fisher` repository.

The program's text processing is embedded shallowly: a Rust string is
modelled as its list of characters (`Str := List Char`), and `List.length`
models Rust's `len()` (exact for the ASCII data the manifest machinery
produces; multi-byte characters only change the numeric budget, not the
control flow being verified).

Embedded operations (from `src/files.rs`, `src/model.rs`, `src/faiss.rs`):
`chunk_text`, `add_to_faiss_lookup`, `get_chunk`, `setup_vector_store`,
`query_vector_store`, and the `VectorStore` adapter.  File-system state is
explicit: a `Dir` carries the regular files (with their extracted text) and
the optional content of `<dir>/.vs/faiss_lookup.txt`; a panicking Rust path
(`unwrap`/`expect`/`assert`) is modelled as `Option.none`.
-/

set_option linter.unusedVariables false
set_option maxRecDepth 100000

namespace Fisher

/-- A Rust string, modelled as its character list. -/
abbrev Str := List Char

/-- Character list of a Lean string literal (used for concrete inputs). -/
def strChars (s : String) : Str := s.data

/-! ### Rust `str::lines`

`lines()` splits at `'\n'`, strips one `'\r'` that immediately precedes a
`'\n'`, and does not yield a final empty line when the text ends with a
newline.  `BufRead::lines` (used to read the manifest) has the same
line-splitting semantics. -/

/-- Strip the `'\r'` sitting on top of the reversed line buffer, if any
(Rust `lines()` strips a carriage return only directly before `'\n'`). -/
def stripCRrev (acc : List Char) : List Char :=
  match acc with
  | '\r' :: rest => rest
  | _ => acc

/-- Worker for `lines`: `acc` is the current line, reversed. -/
def linesAux : List Char → List Char → List (List Char)
  | [], acc => if acc = [] then [] else [acc.reverse]
  | c :: cs, acc =>
    if c = '\n' then (stripCRrev acc).reverse :: linesAux cs []
    else linesAux cs (c :: acc)

/-- Model of Rust `str::lines` / `BufRead::lines`. -/
def lines (s : Str) : List Str := linesAux s []

/-! ### Rust `str::split_whitespace`

Whitespace is modelled by `Char.isWhitespace` (space, tab, CR, LF), which
agrees with Rust's Unicode definition on all characters the program ever
writes. -/

/-- Worker for `splitWhitespace`: `acc` is the current word, reversed. -/
def splitWsAux : List Char → List Char → List (List Char)
  | [], acc => if acc = [] then [] else [acc.reverse]
  | c :: cs, acc =>
    if c.isWhitespace then
      if acc = [] then splitWsAux cs []
      else acc.reverse :: splitWsAux cs []
    else splitWsAux cs (c :: acc)

/-- Model of Rust `str::split_whitespace` (collected to a list). -/
def splitWhitespace (s : Str) : List Str := splitWsAux s []

/-! ### Decimal printing and parsing

`usize::to_string` and `str::parse::<usize>` for the chunk counts stored in
the manifest.  (The parse model accepts exactly nonempty digit strings;
Rust additionally allows a leading `+`, which the program never writes.) -/

/-- The decimal digit characters. -/
def decChar : Nat → Char
  | 0 => '0' | 1 => '1' | 2 => '2' | 3 => '3' | 4 => '4'
  | 5 => '5' | 6 => '6' | 7 => '7' | 8 => '8' | _ => '9'

/-- Numeric value of a digit character. -/
def digitVal (c : Char) : Nat := c.toNat - 48

/-- Decimal digits of `n`, most significant first; fuel-recursive so that
it computes by kernel reduction. -/
def natToCharsAux (fuel : Nat) (n : Nat) : List Char :=
  match fuel with
  | 0 => []
  | fuel + 1 =>
    if n = 0 then []
    else natToCharsAux fuel (n / 10) ++ [decChar (n % 10)]

/-- Model of Rust `usize::to_string`. -/
def natToChars (n : Nat) : Str :=
  if n = 0 then ['0'] else natToCharsAux n n

/-- Model of Rust `str::parse::<usize>` (`Ok` as `some`). -/
def parseNat (s : Str) : Option Nat :=
  if s ≠ [] ∧ s.all (fun c => c.isDigit) then
    some (s.foldl (fun m c => m * 10 + digitVal c) 0)
  else none

/-! ### The chunker (`files.rs::chunk_text`, lines 101-122)

The loop state is the pair (`current_chunk`, `current_length`); the source
keeps `current_length` as a separate counter, so the model does too. -/

/-- Budget `max_length` from `chunk_text`. -/
def max_length : Nat := 1000

/-- The `for line in text.lines()` loop of `chunk_text`, followed by the
final flush of a nonempty buffer. -/
def chunkLoop : List Str → Str → Nat → List Str
  | [], current_chunk, _ =>
    if current_chunk = [] then [] else [current_chunk]
  | line :: rest, current_chunk, current_length =>
    if current_length + line.length > max_length then
      current_chunk :: chunkLoop rest line line.length
    else
      chunkLoop rest (current_chunk ++ line) (current_length + line.length)

/-- Model of `files.rs::chunk_text`. -/
def chunk_text (text : Str) : List Str := chunkLoop (lines text) [] 0

end Fisher

namespace Fisher.Model

/-- Model of `model.rs::chunk_text` (lines 178-199): a second, textually
separate copy of the same loop. -/
def chunkLoop : List Fisher.Str → Fisher.Str → Nat → List Fisher.Str
  | [], current_chunk, _ =>
    if current_chunk = [] then [] else [current_chunk]
  | line :: rest, current_chunk, current_length =>
    if current_length + line.length > Fisher.max_length then
      current_chunk :: chunkLoop rest line line.length
    else
      chunkLoop rest (current_chunk ++ line) (current_length + line.length)

/-- Model of `model.rs::chunk_text`. -/
def chunk_text (text : Fisher.Str) : List Fisher.Str :=
  chunkLoop (Fisher.lines text) [] 0

end Fisher.Model

namespace Fisher

/-! ### The file system and manifest state

A `Dir` models the directory being indexed: its regular files (in
enumeration order, each carrying the text that reading / PDF-extracting it
yields) together with the content of `<dir>/.vs/faiss_lookup.txt`
(`none` when that file does not exist). -/

/-- A regular file of the directory: its path (as handed to
`file.to_str()`) and the text obtained from it (`read_to_string` for plain
files, `pdf_extract::extract_text_from_mem` for PDFs — both routes end in
`chunk_text` of this text, so only the text matters). -/
structure SourceFile where
  path : Str
  text : Str
deriving DecidableEq

/-- The directory state seen by an indexing or query run. -/
structure Dir where
  files : List SourceFile
  lookup : Option Str
deriving DecidableEq

/-- Model of `files.rs::read_to_string`/`process_file`'s file access:
look the path up among the directory's files (`none` models the
`expect("Failed to read file")` panic on a missing file). -/
def read_file (d : Dir) (name : Str) : Option Str :=
  (d.files.find? (fun f => decide (f.path = name))).map SourceFile.text

/-- Model of `files.rs::process_file` (lines 88-99): both the PDF and the
plain-text branch reduce to `chunk_text` of the file's extracted text. -/
def process_file (d : Dir) (file : Str) : Option (List Str) :=
  (read_file d file).map (fun text => chunk_text text)

/-! ### Manifest parsing (`faiss_lookup.txt`)

`setup_vector_store` (lines 23-34) collects `parts[0]` of every line with
exactly two whitespace-separated parts (without parsing the count);
`get_chunk` (lines 136-147) additionally requires the count to parse. -/

/-- One line of the manifest as `get_chunk` parses it. -/
def parseLookupLine (l : Str) : Option (Str × Nat) :=
  match splitWhitespace l with
  | [name, cnt] => (parseNat cnt).map (fun n => (name, n))
  | _ => none

/-- The `(filename, chunk_count)` entries `get_chunk` loads. -/
def lookupEntries (content : Str) : List (Str × Nat) :=
  (lines content).filterMap parseLookupLine

/-- The `existing_files` list `setup_vector_store` loads (first part of
every line with exactly two parts; the count need not parse). -/
def existingFilesOf (content : Str) : List Str :=
  (lines content).filterMap (fun l =>
    match splitWhitespace l with
    | [name, _] => some name
    | _ => none)

/-- Total chunk count of a list of manifest entries. -/
def sumChunkCounts (es : List (Str × Nat)) : Nat :=
  (es.map Prod.snd).sum

/-- The record `add_to_faiss_lookup` writes for one file:
`"<path><space><count><newline>"`. -/
def lookupLine (file_name : Str) (num_chunks : Nat) : Str :=
  file_name ++ ' ' :: (natToChars num_chunks ++ ['\n'])

/-- Model of `files.rs::add_to_faiss_lookup` (lines 67-74): the manifest is
opened with `OpenOptions::new().append(true)` — and no `create(true)` — so
the open fails (and `unwrap` panics, modelled as `none`) when the file does
not exist; otherwise the record is appended. -/
def add_to_faiss_lookup (lookup : Option Str) (num_chunks : Nat)
    (file_name : Str) : Option Str :=
  match lookup with
  | none => none
  | some content => some (content ++ lookupLine file_name num_chunks)

/-! ### The vector index adapter (`faiss.rs::VectorStore`)

Vector entries are modelled as integer lists (the numeric values of the
embeddings play no role in the verified claims).  A failed dimension
assertion is a panic, modelled as `none`. -/

/-- Model of `faiss.rs::VectorStore`: a Flat L2 index is its vector list in
insertion order, plus the configured dimensionality. -/
structure VectorStore where
  dim : Nat
  vecs : List (List Int)
deriving DecidableEq

/-- Model of `VectorStore::new`. -/
def VectorStore.new (dim : Nat) : VectorStore := ⟨dim, []⟩

/-- Model of `VectorStore::add`: every vector must match `dim`
(`assert_eq!` panic otherwise), then all are appended in order. -/
def VectorStore.add (vs : VectorStore) (vectors : List (List Int)) :
    Option VectorStore :=
  if vectors.all (fun v => decide (v.length = vs.dim)) then
    some { vs with vecs := vs.vecs ++ vectors }
  else none

/-- Model of `VectorStore::len` (`ntotal`). -/
def VectorStore.len (vs : VectorStore) : Nat := vs.vecs.length

/-- Squared Euclidean (L2) distance, the metric of the Flat index. -/
def sqDist (a b : List Int) : Int :=
  ((List.zipWith (fun x y => (x - y) * (x - y)) a b).foldl (· + ·) 0)

/-- Insert into a list sorted by `le`. -/
def insertBy (le : α → α → Bool) (x : α) : List α → List α
  | [] => [x]
  | y :: ys => if le x y then x :: y :: ys else y :: insertBy le x ys

/-- Sort by `le` (insertion sort; stands in for the engine's exact
nearest-neighbour ordering). -/
def sortBy (le : α → α → Bool) : List α → List α
  | [] => []
  | x :: xs => insertBy le x (sortBy le xs)

/-- Model of `VectorStore::query`: distances ascending with their 0-based
insertion-order ids; when fewer than `k` vectors exist, faiss pads the
remaining labels with the invalid id `-1` (`Idx::get` then yields `None`),
modelled as `Option.none` labels. -/
def VectorStore.query (vs : VectorStore) (q : List Int) (k : Nat) :
    Option (List Int × List (Option Nat)) :=
  if q.length = vs.dim then
    let scored := vs.vecs.enum.map (fun p => (sqDist q p.2, p.1))
    let sorted := sortBy
      (fun a b => decide (a.1 < b.1 ∨ (a.1 = b.1 ∧ a.2 ≤ b.2))) scored
    let top := sorted.take k
    some (top.map Prod.fst ++ List.replicate (k - top.length) 0,
          top.map (fun p => some p.2) ++ List.replicate (k - top.length) none)
  else none

/-! ### The incremental indexer (`files.rs::setup_vector_store`) -/

/-- Result state of an indexing run: the run's (process-local) vector
store, the manifest file content after the run, and the number of
`generate_embedding_document` calls the run performed. -/
structure RunState where
  vector_store : VectorStore
  lookup : Option Str
  embed_calls : Nat
deriving DecidableEq

/-- The per-file body of `setup_vector_store`'s loops (lines 42-49 and
53-62): chunk the file; if any chunks result, embed them (one batch call —
modelled from the spec: `embed_documents` returns one vector per input, in
order), append the vectors, then append the manifest record. -/
def processOneFile (embed : Str → List Int) (st : RunState)
    (f : SourceFile) : Option RunState :=
  let chunks := chunk_text f.text
  if chunks.isEmpty then some st
  else do
    let embeddings := chunks.map embed
    let store ← st.vector_store.add embeddings
    let lookup ← add_to_faiss_lookup st.lookup chunks.length f.path
    some ⟨store, some lookup, st.embed_calls + 1⟩

/-- The `existing_files` list read by `setup_vector_store` (lines 20-34):
empty when the manifest file does not exist. -/
def lookupExisting : Option Str → List Str
  | none => []
  | some content => existingFilesOf content

/-- Model of `files.rs::setup_vector_store` (lines 9-65).  The embedding
collaborator is a parameter.  `none` models a panicked run; `some st` a
completed one.  The `.vs` directory creation (lines 10-16) creates no
manifest file and is not otherwise observable here. -/
def setup_vector_store (embed : Str → List Int) (d : Dir) :
    Option RunState :=
  let existing_files := lookupExisting d.lookup
  let is_empty := existing_files.isEmpty
  let init : RunState := ⟨VectorStore.new 3072, d.lookup, 0⟩
  if is_empty then
    d.files.foldlM (processOneFile embed) init
  else
    d.files.foldlM (fun st f =>
      if f.path ∈ existing_files then some st
      else processOneFile embed st f) init

/-! ### The chunk resolver (`files.rs::get_chunk`) -/

/-- The entry-walking loop of `get_chunk` (lines 150-166).  The outer
`Option` is the panic layer (`process_file` panics on an unreadable file);
the inner `Option` is `get_chunk`'s own return value. -/
def getChunkGo (d : Dir) : List (Str × Nat) → Nat → Option (Option Str)
  | [], _ => some none
  | (filename, chunk_count) :: rest, idx =>
    if idx < chunk_count then
      match process_file d filename with
      | none => none
      | some chunks =>
        if h : idx < chunks.length then some (some (chunks.get ⟨idx, h⟩))
        else some none
    else getChunkGo d rest (idx - chunk_count)

/-- Model of `files.rs::get_chunk` (lines 130-167): a missing manifest file
returns `None` (`File::open(..).ok()?`); otherwise the parsed entries are
walked. -/
def get_chunk (d : Dir) (vector_index : Nat) : Option (Option Str) :=
  match d.lookup with
  | none => some none
  | some content => getChunkGo d (lookupEntries content) vector_index

/-! ### The query path (`files.rs::query_vector_store`) -/

/-- Model of `files.rs::query_vector_store` (lines 170-186).  The function
builds a fresh (empty) `VectorStore` — the source's own TODO notes that
nothing is loaded into it — embeds the query (modelled from the spec:
`embed_query(text) -> float vector`; the imported
`model::generate_embedding_query` is defined nowhere in the repository),
searches with `k = 5`, and unwraps every returned id (`i.get().unwrap()`
panics on an invalid id, modelled as `none`). -/
def query_vector_store (embed_query : Str → List Int) (query : Str)
    (directory : Dir) : Option (List Nat) := do
  let vector_store := VectorStore.new 3072
  let embedding := embed_query query
  let (_distances, indices) ← vector_store.query embedding 5
  indices.mapM id

/-! ## Auxiliary facts about characters and decimal digits -/

/-- A path is usable by the manifest format when it is nonempty and free of
whitespace. -/
def goodPath (p : Str) : Prop :=
  p ≠ [] ∧ ∀ c ∈ p, c.isWhitespace = false

/-- Manifest content to which appending a line behaves additively: empty,
or ending in a newline. -/
def goodEnd (c : Str) : Prop :=
  c = [] ∨ c.getLast? = some '\n'

theorem decChar_isDigit (k : Nat) : (decChar k).isDigit = true := by
  unfold decChar
  split <;> decide

theorem digitVal_decChar {k : Nat} (h : k < 10) : digitVal (decChar k) = k := by
  interval_cases k <;> decide

theorem not_ws_of_isDigit {c : Char} (h : c.isDigit = true) :
    c.isWhitespace = false := by
  have hd : ('0' ≤ c ∧ c ≤ '9') := by simpa [Char.isDigit] using h
  have h1 : c ≠ ' ' := by rintro rfl; revert hd; decide
  have h2 : c ≠ '\t' := by rintro rfl; revert hd; decide
  have h3 : c ≠ '\r' := by rintro rfl; revert hd; decide
  have h4 : c ≠ '\n' := by rintro rfl; revert hd; decide
  simp [Char.isWhitespace, h1, h2, h3, h4]

theorem ne_nl_of_isDigit {c : Char} (h : c.isDigit = true) : c ≠ '\n' := by
  intro he; subst he; exact absurd h (by decide)

theorem ne_cr_of_isDigit {c : Char} (h : c.isDigit = true) : c ≠ '\r' := by
  intro he; subst he; exact absurd h (by decide)

theorem natToCharsAux_digits (fuel : Nat) :
    ∀ n, ∀ c ∈ natToCharsAux fuel n, c.isDigit = true := by
  induction fuel with
  | zero => intro n c hc; simp [natToCharsAux] at hc
  | succ fuel ih =>
    intro n c hc
    unfold natToCharsAux at hc
    split at hc
    · simp at hc
    · rcases List.mem_append.mp hc with h | h
      · exact ih _ _ h
      · simp only [List.mem_singleton] at h
        subst h
        exact decChar_isDigit _

theorem natToChars_digits (n : Nat) : ∀ c ∈ natToChars n, c.isDigit = true := by
  unfold natToChars
  split
  · intro c hc
    simp only [List.mem_singleton] at hc
    subst hc; decide
  · exact natToCharsAux_digits _ _

theorem natToChars_not_ws (n : Nat) :
    ∀ c ∈ natToChars n, c.isWhitespace = false :=
  fun c hc => not_ws_of_isDigit (natToChars_digits n c hc)

theorem natToChars_ne_nil (n : Nat) : natToChars n ≠ [] := by
  unfold natToChars
  split
  · simp
  · rename_i hn
    cases n with
    | zero => exact absurd rfl hn
    | succ m =>
      unfold natToCharsAux
      simp [hn]

theorem natToCharsAux_foldl (fuel : Nat) :
    ∀ n, n ≤ fuel → ∀ a : Nat,
      (natToCharsAux fuel n).foldl (fun m c => m * 10 + digitVal c) a
        = a * 10 ^ (natToCharsAux fuel n).length + n := by
  induction fuel with
  | zero =>
    intro n hn a
    interval_cases n
    simp [natToCharsAux]
  | succ fuel ih =>
    intro n hn a
    unfold natToCharsAux
    split
    · rename_i h0; subst h0; simp
    · rename_i h0
      have hdiv : n / 10 ≤ fuel := by
        have : n / 10 < n := Nat.div_lt_self (Nat.pos_of_ne_zero h0) (by norm_num)
        omega
      rw [List.foldl_append, ih _ hdiv a]
      simp only [List.foldl_cons, List.foldl_nil, List.length_append,
        List.length_singleton]
      rw [digitVal_decChar (Nat.mod_lt _ (by norm_num))]
      have hdm := Nat.div_add_mod n 10
      rw [pow_succ, ← mul_assoc]
      omega

/-- Round trip: the decimal record written for a chunk count parses back to
that count. -/
theorem parseNat_natToChars (n : Nat) : parseNat (natToChars n) = some n := by
  unfold parseNat
  rw [if_pos ⟨natToChars_ne_nil n, List.all_eq_true.mpr (by
    intro c hc
    simpa using natToChars_digits n c hc)⟩]
  unfold natToChars
  split
  · rename_i h0; subst h0; decide
  · rename_i h0
    rw [natToCharsAux_foldl n n le_rfl 0]
    simp

/-! ## Facts about `lines` -/

theorem stripCRrev_of_not_mem {xs : List Char} (h : '\r' ∉ xs) :
    stripCRrev xs = xs := by
  unfold stripCRrev
  split
  · simp at h
  · rfl

theorem linesAux_nil (acc : List Char) :
    linesAux [] acc = if acc = [] then [] else [acc.reverse] := rfl

theorem linesAux_cons (c : Char) (cs acc : List Char) :
    linesAux (c :: cs) acc =
      if c = '\n' then (stripCRrev acc).reverse :: linesAux cs []
      else linesAux cs (c :: acc) := rfl

theorem linesAux_no_nl {l : List Char} (h : '\n' ∉ l) :
    ∀ (acc r : List Char),
      linesAux (l ++ r) acc = linesAux r (l.reverse ++ acc) := by
  induction l with
  | nil => intro acc r; simp
  | cons c t ih =>
    intro acc r
    have hc : ¬ c = '\n' := fun he => h (he ▸ List.mem_cons_self c t)
    have ht : '\n' ∉ t := fun hm => h (List.mem_cons_of_mem c hm)
    rw [List.cons_append, linesAux_cons, if_neg hc, ih ht (c :: acc) r]
    simp

theorem lines_of_no_nl {l : Str} (h : '\n' ∉ l) (hne : l ≠ []) :
    lines l = [l] := by
  have h0 : lines l = linesAux (l ++ []) [] := by simp [lines]
  rw [h0, linesAux_no_nl h [] [], linesAux_nil]
  simp [hne]

theorem lines_terminated {l : Str} (hnl : '\n' ∉ l) (hcr : '\r' ∉ l) :
    lines (l ++ ['\n']) = [l] := by
  unfold lines
  rw [linesAux_no_nl hnl [] ['\n'], linesAux_cons, if_pos rfl, linesAux_nil]
  rw [List.append_nil, stripCRrev_of_not_mem (by simpa using hcr)]
  simp

theorem linesAux_append {a : List Char} :
    ∀ (acc b : List Char), a.getLast? = some '\n' →
      linesAux (a ++ b) acc = linesAux a acc ++ linesAux b [] := by
  induction a with
  | nil => intro acc b h; simp at h
  | cons c t ih =>
    intro acc b h
    cases t with
    | nil =>
      have hc : c = '\n' := by simpa using h
      subst hc
      rw [List.cons_append, List.nil_append, linesAux_cons, if_pos rfl,
        linesAux_cons, if_pos rfl, linesAux_nil]
      simp
    | cons x xs =>
      have ht : (x :: xs).getLast? = some '\n' := by
        rwa [List.getLast?_cons_cons] at h
      by_cases hc : c = '\n'
      · subst hc
        rw [List.cons_append, linesAux_cons, if_pos rfl, linesAux_cons,
          if_pos rfl, ih [] b ht, List.cons_append]
      · rw [List.cons_append, linesAux_cons, if_neg hc, linesAux_cons,
          if_neg hc, ih (c :: acc) b ht]

theorem lines_append {a b : Str} (h : goodEnd a) :
    lines (a ++ b) = lines a ++ lines b := by
  rcases h with h | h
  · subst h; simp [lines, linesAux_nil]
  · unfold lines
    exact linesAux_append [] b h

/-! ## Facts about `splitWhitespace` -/

theorem splitWsAux_nil (acc : List Char) :
    splitWsAux [] acc = if acc = [] then [] else [acc.reverse] := rfl

theorem splitWsAux_cons (c : Char) (cs acc : List Char) :
    splitWsAux (c :: cs) acc =
      if c.isWhitespace then
        (if acc = [] then splitWsAux cs [] else acc.reverse :: splitWsAux cs [])
      else splitWsAux cs (c :: acc) := rfl

theorem splitWsAux_no_ws {l : List Char}
    (h : ∀ c ∈ l, c.isWhitespace = false) :
    ∀ (acc r : List Char),
      splitWsAux (l ++ r) acc = splitWsAux r (l.reverse ++ acc) := by
  induction l with
  | nil => intro acc r; simp
  | cons c t ih =>
    intro acc r
    have hc : c.isWhitespace = false := h c (List.mem_cons_self c t)
    have ht : ∀ x ∈ t, x.isWhitespace = false :=
      fun x hx => h x (List.mem_cons_of_mem c hx)
    rw [List.cons_append, splitWsAux_cons, if_neg (by simp [hc]),
      ih ht (c :: acc) r]
    simp

theorem splitWhitespace_single {q : Str} (hq : q ≠ [])
    (hqw : ∀ c ∈ q, c.isWhitespace = false) :
    splitWhitespace q = [q] := by
  have h0 : splitWhitespace q = splitWsAux (q ++ []) [] := by
    simp [splitWhitespace]
  rw [h0, splitWsAux_no_ws hqw [] [], splitWsAux_nil]
  simp [hq]

theorem splitWhitespace_pair {p q : Str} (hp : p ≠ [])
    (hpw : ∀ c ∈ p, c.isWhitespace = false) (hq : q ≠ [])
    (hqw : ∀ c ∈ q, c.isWhitespace = false) :
    splitWhitespace (p ++ ' ' :: q) = [p, q] := by
  unfold splitWhitespace
  rw [splitWsAux_no_ws hpw [] (' ' :: q), splitWsAux_cons,
    if_pos (by decide), List.append_nil]
  have hpr : ¬ p.reverse = [] := by simpa using hp
  rw [if_neg hpr]
  have h0 : splitWsAux q [] = splitWsAux (q ++ []) [] := by simp
  rw [h0, splitWsAux_no_ws hqw [] [], splitWsAux_nil]
  simp [hq]

/-! ## Manifest append/load lemmas -/

theorem lookupLine_eq (p : Str) (n : Nat) :
    lookupLine p n = (p ++ ' ' :: natToChars n) ++ ['\n'] := by
  simp [lookupLine]

theorem no_nl_body {p : Str} (hpw : ∀ c ∈ p, c.isWhitespace = false) (n : Nat) :
    '\n' ∉ p ++ ' ' :: natToChars n := by
  intro hmem
  rcases List.mem_append.mp hmem with h | h
  · have := hpw _ h; simp at this
  · rcases List.mem_cons.mp h with h | h
    · exact absurd h (by decide)
    · exact ne_nl_of_isDigit (natToChars_digits n _ h) rfl

theorem no_cr_body {p : Str} (hpw : ∀ c ∈ p, c.isWhitespace = false) (n : Nat) :
    '\r' ∉ p ++ ' ' :: natToChars n := by
  intro hmem
  rcases List.mem_append.mp hmem with h | h
  · have := hpw _ h; simp at this
  · rcases List.mem_cons.mp h with h | h
    · exact absurd h (by decide)
    · exact ne_cr_of_isDigit (natToChars_digits n _ h) rfl

theorem lines_lookupLine {p : Str} (hgood : goodPath p) (n : Nat) :
    lines (lookupLine p n) = [p ++ ' ' :: natToChars n] := by
  rw [lookupLine_eq]
  exact lines_terminated (no_nl_body hgood.2 n) (no_cr_body hgood.2 n)

theorem parseLookupLine_mk {p : Str} (hgood : goodPath p) (n : Nat) :
    parseLookupLine (p ++ ' ' :: natToChars n) = some (p, n) := by
  unfold parseLookupLine
  rw [splitWhitespace_pair hgood.1 hgood.2 (natToChars_ne_nil n)
    (natToChars_not_ws n)]
  simp [parseNat_natToChars]

theorem goodEnd_append_lookupLine (c : Str) {p : Str} (n : Nat) :
    goodEnd (c ++ lookupLine p n) := by
  right
  rw [lookupLine_eq, ← List.append_assoc]
  exact List.getLast?_concat _

theorem lookupEntries_append {c p : Str} {n : Nat} (hend : goodEnd c)
    (hgood : goodPath p) :
    lookupEntries (c ++ lookupLine p n) = lookupEntries c ++ [(p, n)] := by
  unfold lookupEntries
  rw [lines_append hend, List.filterMap_append, lines_lookupLine hgood n]
  simp [parseLookupLine_mk hgood n]

theorem existingFilesOf_append {c p : Str} {n : Nat} (hend : goodEnd c)
    (hgood : goodPath p) :
    existingFilesOf (c ++ lookupLine p n) = existingFilesOf c ++ [p] := by
  unfold existingFilesOf
  rw [lines_append hend, List.filterMap_append, lines_lookupLine hgood n]
  simp [splitWhitespace_pair hgood.1 hgood.2 (natToChars_ne_nil n)
    (natToChars_not_ws n)]

/-! ## Chunker lemmas -/

theorem chunkLoop_nil (cur : Str) (len : Nat) :
    chunkLoop [] cur len = if cur = [] then [] else [cur] := rfl

theorem chunkLoop_cons (l : Str) (t : List Str) (cur : Str) (len : Nat) :
    chunkLoop (l :: t) cur len =
      if len + l.length > max_length then
        cur :: chunkLoop t l l.length
      else chunkLoop t (cur ++ l) (len + l.length) := rfl

theorem chunkLoop_join (ls : List Str) :
    ∀ (cur : Str) (len : Nat),
      (chunkLoop ls cur len).flatten = cur ++ ls.flatten := by
  induction ls with
  | nil =>
    intro cur len
    rw [chunkLoop_nil]
    split
    · simp [*]
    · simp
  | cons l t ih =>
    intro cur len
    rw [chunkLoop_cons]
    split
    · simp [ih]
    · rw [ih]
      simp

theorem chunkLoop_oversize (ls : List Str) :
    ∀ (cur : Str) (len : Nat), len = cur.length →
      ∀ c ∈ chunkLoop ls cur len, max_length < c.length → c = cur ∨ c ∈ ls := by
  induction ls with
  | nil =>
    intro cur len hinv c hc hlen
    rw [chunkLoop_nil] at hc
    split at hc
    · simp at hc
    · simp only [List.mem_singleton] at hc
      exact Or.inl hc
  | cons l t ih =>
    intro cur len hinv c hc hlen
    rw [chunkLoop_cons] at hc
    split at hc
    · rcases List.mem_cons.mp hc with h | h
      · exact Or.inl h
      · rcases ih l l.length rfl c h hlen with h1 | h1
        · exact Or.inr (h1 ▸ List.mem_cons_self l t)
        · exact Or.inr (List.mem_cons_of_mem l h1)
    · rename_i hle
      rcases ih (cur ++ l) (len + l.length) (by simp [hinv]) c hc hlen with h1 | h1
      · subst h1
        rw [List.length_append] at hlen
        omega
      · exact Or.inr (List.mem_cons_of_mem l h1)

/-! ## Claims about the chunker (C3, C4, C5, C10) -/

/-- An oversized single-line text: 1001 copies of `a`. -/
def oversizedA : Str := List.replicate 1001 'a'

/-- A second oversized single-line text, for the amended claim's witness. -/
def oversizedB : Str := List.replicate 1001 'b'

theorem lines_replicate {c : Char} (hc : c ≠ '\n') {n : Nat} (hn : n ≠ 0) :
    lines (List.replicate n c) = [List.replicate n c] := by
  apply lines_of_no_nl
  · intro h
    rw [List.mem_replicate] at h
    exact hc h.2.symm
  · simp [hn]

/-- Core of C3: a text whose only line exceeds the budget chunks to an
empty chunk (flushed before the line) followed by the whole line. -/
theorem chunk_single_oversized {text l : Str} (hl : lines text = [l])
    (hlen : max_length < l.length) : chunk_text text = [[], l] := by
  have hne : l ≠ [] := by
    intro h
    subst h
    simp [max_length] at hlen
  unfold chunk_text
  rw [hl, chunkLoop_cons, if_pos (by omega), chunkLoop_nil, if_neg hne]

/-- C3 counterexample: on the single 1001-character line `aaa…a`,
`chunk_text` returns two chunks (the first one empty), not exactly one
chunk as claimed. -/
theorem C3_counterexample :
    chunk_text oversizedA = [[], oversizedA] ∧
    (chunk_text oversizedA).length ≠ 1 := by
  have h1 : chunk_text oversizedA = [[], oversizedA] :=
    chunk_single_oversized (lines_replicate (by decide) (by norm_num))
      (by simp [oversizedA, max_length])
  exact ⟨h1, by rw [h1]; simp⟩

/-- C3 (amended): for every text consisting of a single line longer than
`max_length`, `chunk_text` returns exactly two chunks — an empty chunk
flushed before the oversized line, then one chunk holding the whole
unsplit line. -/
theorem C3_oversized_line_two_chunks (text l : Str) (hl : lines text = [l])
    (hlen : max_length < l.length) : chunk_text text = [[], l] :=
  chunk_single_oversized hl hlen

/-- Witness for C3 (amended) at the concrete line `bbb…b` (length 1001). -/
theorem C3_oversized_line_two_chunks_witness :
    lines oversizedB = [oversizedB] ∧ max_length < oversizedB.length ∧
    chunk_text oversizedB = [[], oversizedB] :=
  ⟨lines_replicate (by decide) (by norm_num),
   by simp [oversizedB, max_length],
   C3_oversized_line_two_chunks oversizedB oversizedB
     (lines_replicate (by decide) (by norm_num))
     (by simp [oversizedB, max_length])⟩

/-- C4: every chunk of `chunk_text text` fits the 1000-character budget,
except a chunk that is a single line of the text longer than the budget. -/
theorem C4_chunk_length_bound (text : Str) :
    ∀ c ∈ chunk_text text, c.length ≤ max_length ∨
      (c ∈ lines text ∧ max_length < c.length) := by
  intro c hc
  unfold chunk_text at hc
  by_cases hlen : c.length ≤ max_length
  · exact Or.inl hlen
  · have hlt : max_length < c.length := by omega
    rcases chunkLoop_oversize (lines text) [] 0 rfl c hc hlt with h | h
    · subst h
      simp [max_length] at hlt
    · exact Or.inr ⟨h, hlt⟩

/-- Witness for C4 at the two-line text `"hi\nyo"` and its single chunk. -/
theorem C4_chunk_length_bound_witness :
    strChars "hiyo" ∈ chunk_text (strChars "hi\nyo") ∧
    ((strChars "hiyo").length ≤ max_length ∨
      (strChars "hiyo" ∈ lines (strChars "hi\nyo") ∧
        max_length < (strChars "hiyo").length)) :=
  ⟨by decide, C4_chunk_length_bound (strChars "hi\nyo") (strChars "hiyo")
    (by decide)⟩

/-- C5: concatenating all chunks (with nothing added) reproduces the
concatenation of the text's lines. -/
theorem C5_concat_chunks (text : Str) :
    (chunk_text text).flatten = (lines text).flatten := by
  unfold chunk_text
  rw [chunkLoop_join]
  rfl

theorem model_chunkLoop_cons (l : Str) (t : List Str) (cur : Str)
    (len : Nat) :
    Model.chunkLoop (l :: t) cur len =
      if len + l.length > max_length then
        cur :: Model.chunkLoop t l l.length
      else Model.chunkLoop t (cur ++ l) (len + l.length) := rfl

theorem chunkLoop_eq_model (ls : List Str) :
    ∀ (cur : Str) (len : Nat),
      chunkLoop ls cur len = Model.chunkLoop ls cur len := by
  induction ls with
  | nil => intro cur len; rfl
  | cons l t ih =>
    intro cur len
    rw [chunkLoop_cons, model_chunkLoop_cons]
    split
    · rw [ih]
    · rw [ih]

/-- C10: the chunker in `files.rs` and the chunker in `model.rs` return
identical chunk sequences on every input text. -/
theorem C10_chunkers_equivalent (text : Str) :
    chunk_text text = Model.chunk_text text := by
  unfold chunk_text Model.chunk_text
  rw [chunkLoop_eq_model]

/-! ## Claims about the manifest append (C8, C9) -/

/-- C8 counterexample: appending the entry `("a b", 1)` — a path with a
space — writes the record `"a b 1\n"`, but loading that manifest yields no
entry and no `existing_files` membership for `"a b"`: the append/load
round trip fails for paths containing whitespace. -/
theorem C8_counterexample :
    add_to_faiss_lookup (some []) 1 (strChars "a b") =
      some (strChars "a b 1\n") ∧
    lookupEntries (strChars "a b 1\n") = [] ∧
    strChars "a b" ∉ existingFilesOf (strChars "a b 1\n") :=
  ⟨by decide, by decide, by decide⟩

/-- C8 (amended): for every nonempty whitespace-free path and every count,
appending to an existing manifest that is empty or newline-terminated makes
loading yield exactly the old entries plus the new `(path, count)` entry,
and membership by path (the indexer's `existing_files.contains`) holds. -/
theorem C8_append_load_roundtrip (c p : Str) (n : Nat) (c2 : Str)
    (hend : goodEnd c) (hgood : goodPath p)
    (happend : add_to_faiss_lookup (some c) n p = some c2) :
    lookupEntries c2 = lookupEntries c ++ [(p, n)] ∧
    existingFilesOf c2 = existingFilesOf c ++ [p] ∧
    p ∈ existingFilesOf c2 := by
  have hc2 : c2 = c ++ lookupLine p n := by
    simpa [add_to_faiss_lookup] using happend.symm
  subst hc2
  refine ⟨lookupEntries_append hend hgood,
    existingFilesOf_append hend hgood, ?_⟩
  rw [existingFilesOf_append hend hgood]
  simp

/-- Witness for C8 (amended) at the empty manifest, path `"ab"`, count 2. -/
theorem C8_append_load_roundtrip_witness :
    lookupEntries (strChars "ab 2\n") =
      lookupEntries [] ++ [(strChars "ab", 2)] ∧
    existingFilesOf (strChars "ab 2\n") =
      existingFilesOf [] ++ [strChars "ab"] ∧
    strChars "ab" ∈ existingFilesOf (strChars "ab 2\n") :=
  C8_append_load_roundtrip [] (strChars "ab") 2 (strChars "ab 2\n")
    (Or.inl rfl) ⟨by decide, by decide⟩ (by decide)

/-- C9: the failing input — `.vs/` exists but `faiss_lookup.txt` does not
(every fresh directory) — makes `add_to_faiss_lookup` panic, because the
file is opened with `append(true)` and no `create(true)`; when the file
does exist, exactly one record `"<path> <count>\n"` is appended. -/
theorem C9_append_without_create :
    add_to_faiss_lookup none 1 (strChars "a.txt") = none ∧
    add_to_faiss_lookup (some []) 1 (strChars "a.txt") =
      some (strChars "a.txt 1\n") :=
  ⟨rfl, by decide⟩

/-! ## The indexing fold (C1, C6) -/

/-- One step of either `setup_vector_store` loop: skip a file whose path is
in `existing_files`, process it otherwise (with `existing_files = []` this
is exactly the first loop). -/
def runStep (embed : Str → List Int) (existing : List Str)
    (st : RunState) (f : SourceFile) : Option RunState :=
  if f.path ∈ existing then some st else processOneFile embed st f

theorem foldlM_congr {α β : Type} {f g : β → α → Option β}
    (h : ∀ st a, f st a = g st a) :
    ∀ (l : List α) (init : β), l.foldlM f init = l.foldlM g init := by
  intro l
  induction l with
  | nil => intro init; simp [List.foldlM_nil]
  | cons a t ih =>
    intro init
    rw [List.foldlM_cons, List.foldlM_cons, h init a]
    cases g init a with
    | none => simp
    | some s => simp [ih s]

/-- Both branches of `setup_vector_store` are the same fold over
`runStep`. -/
theorem setup_eq (embed : Str → List Int) (d : Dir) :
    setup_vector_store embed d =
      d.files.foldlM (runStep embed (lookupExisting d.lookup))
        ⟨VectorStore.new 3072, d.lookup, 0⟩ := by
  unfold setup_vector_store
  by_cases hem : (lookupExisting d.lookup).isEmpty
  · rw [if_pos hem]
    have hnil : lookupExisting d.lookup = [] := by
      simpa [List.isEmpty_iff] using hem
    apply foldlM_congr
    intro st f
    rw [runStep, hnil, if_neg (List.not_mem_nil _)]
  · rw [if_neg hem]
    rfl

theorem sumChunkCounts_append (es : List (Str × Nat)) (e : Str × Nat) :
    sumChunkCounts (es ++ [e]) = sumChunkCounts es + e.2 := by
  simp [sumChunkCounts]

theorem VectorStore.len_add {vs vs2 : VectorStore}
    {vectors : List (List Int)} (h : vs.add vectors = some vs2) :
    vs2.len = vs.len + vectors.length := by
  unfold VectorStore.add at h
  split at h
  · cases h
    simp [VectorStore.len]
  · cases h

/-- Invariant of one processed file: the manifest grows by one well-formed
record, the store by the file's chunk count, and the call counter by 1. -/
theorem processOneFile_spec {embed : Str → List Int} {st st2 : RunState}
    {f : SourceFile} {c : Str} (hc : st.lookup = some c)
    (hgood : goodPath f.path)
    (h : processOneFile embed st f = some st2) :
    (chunk_text f.text = [] ∧ st2 = st) ∨
    (st2.lookup = some (c ++ lookupLine f.path (chunk_text f.text).length) ∧
      st2.vector_store.len
        = st.vector_store.len + (chunk_text f.text).length ∧
      st2.embed_calls = st.embed_calls + 1) := by
  unfold processOneFile at h
  by_cases hch : (chunk_text f.text).isEmpty
  · rw [if_pos hch] at h
    cases h
    exact Or.inl ⟨List.isEmpty_iff.mp hch, rfl⟩
  · rw [if_neg hch] at h
    simp only [] at h
    cases hadd : st.vector_store.add ((chunk_text f.text).map embed) with
    | none => rw [hadd] at h; cases h
    | some store2 =>
      rw [hadd, hc] at h
      simp only [add_to_faiss_lookup, Option.bind_some] at h
      cases h
      refine Or.inr ⟨rfl, ?_, rfl⟩
      have := VectorStore.len_add hadd
      simpa using this

/-- Main invariant of the indexing fold: a completed fold yields a
well-terminated manifest that extends the initial one, covers (by path)
every input file with a nonempty chunking, and whose entry-count total
grew exactly by the number of vectors appended. -/
theorem runFold_spec (embed : Str → List Int) (existing : List Str)
    (fs : List SourceFile) :
    ∀ (st0 st1 : RunState) (c0 : Str),
      fs.foldlM (runStep embed existing) st0 = some st1 →
      st0.lookup = some c0 → goodEnd c0 →
      (∀ f ∈ fs, goodPath f.path) →
      (∀ p ∈ existing, p ∈ existingFilesOf c0) →
      ∃ c1, st1.lookup = some c1 ∧ goodEnd c1 ∧
        (∀ p ∈ existingFilesOf c0, p ∈ existingFilesOf c1) ∧
        (∀ f ∈ fs, chunk_text f.text ≠ [] → f.path ∈ existingFilesOf c1) ∧
        sumChunkCounts (lookupEntries c1) + st0.vector_store.len
          = sumChunkCounts (lookupEntries c0) + st1.vector_store.len := by
  induction fs with
  | nil =>
    intro st0 st1 c0 hfold hc0 he0 hpaths hex
    rw [List.foldlM_nil] at hfold
    cases hfold
    exact ⟨c0, hc0, he0, fun p hp => hp, by simp, by omega⟩
  | cons f rest ih =>
    intro st0 st1 c0 hfold hc0 he0 hpaths hex
    rw [List.foldlM_cons] at hfold
    obtain ⟨st', hst', hrest⟩ : ∃ st', runStep embed existing st0 f = some st'
        ∧ rest.foldlM (runStep embed existing) st' = some st1 := by
      cases hx : runStep embed existing st0 f with
      | none => rw [hx] at hfold; cases hfold
      | some s =>
        rw [hx] at hfold
        exact ⟨s, rfl, hfold⟩
    have hpr : ∀ g ∈ rest, goodPath g.path :=
      fun g hg => hpaths g (List.mem_cons_of_mem f hg)
    unfold runStep at hst'
    by_cases hmem : f.path ∈ existing
    · rw [if_pos hmem] at hst'
      cases hst'
      obtain ⟨c1, h1, h2, h3, h4, h5⟩ := ih st0 st1 c0 hrest hc0 he0 hpr hex
      refine ⟨c1, h1, h2, h3, ?_, h5⟩
      intro g hg hne
      rcases List.mem_cons.mp hg with rfl | hg2
      · exact h3 _ (hex _ hmem)
      · exact h4 g hg2 hne
    · rw [if_neg hmem] at hst'
      rcases processOneFile_spec hc0 (hpaths f (List.mem_cons_self f rest))
          hst' with ⟨hch, rfl⟩ | ⟨hlk, hlen, _⟩
      · obtain ⟨c1, h1, h2, h3, h4, h5⟩ := ih st' st1 c0 hrest hc0 he0 hpr hex
        refine ⟨c1, h1, h2, h3, ?_, h5⟩
        intro g hg hne
        rcases List.mem_cons.mp hg with rfl | hg2
        · exact absurd hch hne
        · exact h4 g hg2 hne
      · have hgf : goodPath f.path := hpaths f (List.mem_cons_self f rest)
        have he1 : goodEnd (c0 ++ lookupLine f.path (chunk_text f.text).length) :=
          goodEnd_append_lookupLine c0 _
        have hexist : existingFilesOf
            (c0 ++ lookupLine f.path (chunk_text f.text).length)
            = existingFilesOf c0 ++ [f.path] :=
          existingFilesOf_append he0 hgf
        obtain ⟨c1, h1, h2, h3, h4, h5⟩ := ih st' st1 _ hrest hlk he1 hpr
          (by
            intro p hp
            rw [hexist]
            exact List.mem_append_left _ (hex p hp))
        refine ⟨c1, h1, h2, ?_, ?_, ?_⟩
        · intro p hp
          apply h3
          rw [hexist]
          exact List.mem_append_left _ hp
        · intro g hg hne
          rcases List.mem_cons.mp hg with rfl | hg2
          · apply h3
            rw [hexist]
            simp
          · exact h4 g hg2 hne
        · have hent : lookupEntries
              (c0 ++ lookupLine f.path (chunk_text f.text).length)
              = lookupEntries c0 ++ [(f.path, (chunk_text f.text).length)] :=
            lookupEntries_append he0 hgf
          rw [hent, sumChunkCounts_append] at h5
          simp only at h5
          omega

/-- When every file is either chunkless or already listed, the fold is a
no-op: the run completes with the initial state. -/
theorem runFold_skip_all (embed : Str → List Int) (existing : List Str)
    (fs : List SourceFile) :
    ∀ st0 : RunState,
      (∀ f ∈ fs, chunk_text f.text = [] ∨ f.path ∈ existing) →
      fs.foldlM (runStep embed existing) st0 = some st0 := by
  induction fs with
  | nil => intro st0 h; simp [List.foldlM_nil]
  | cons f rest ih =>
    intro st0 h
    rw [List.foldlM_cons]
    have hstep : runStep embed existing st0 f = some st0 := by
      unfold runStep
      by_cases hmem : f.path ∈ existing
      · rw [if_pos hmem]
      · rw [if_neg hmem]
        rcases h f (List.mem_cons_self f rest) with hch | hch
        · unfold processOneFile
          rw [if_pos (List.isEmpty_iff.mpr hch)]
        · exact absurd hch hmem
    rw [hstep]
    exact ih st0 (fun g hg => h g (List.mem_cons_of_mem f hg))

/-! ## Concrete indexing runs (for counterexamples and witnesses) -/

/-- A stand-in embedding collaborator returning the zero vector of the
configured dimensionality. -/
def zeroEmbed : Str → List Int := fun _ => List.replicate 3072 0

theorem zeroEmbed_dim (s : Str) : (zeroEmbed s).length = 3072 := by
  simp only [zeroEmbed, List.length_replicate]

/-- A completed fresh indexing run over one file with one chunk. -/
theorem setup_one_file_fresh (f : SourceFile) (c0 ch : Str)
    (hex : existingFilesOf c0 = []) (hch : chunk_text f.text = [ch])
    (embed : Str → List Int) (hdim : (embed ch).length = 3072) :
    setup_vector_store embed ⟨[f], some c0⟩ =
      some ⟨⟨3072, [embed ch]⟩, some (c0 ++ lookupLine f.path 1), 1⟩ := by
  rw [setup_eq]
  have hexist : lookupExisting (Dir.lookup ⟨[f], some c0⟩) = [] := hex
  rw [List.foldlM_cons]
  have hadd : (VectorStore.new 3072).add ([ch].map embed)
      = some ⟨3072, [embed ch]⟩ := by
    unfold VectorStore.add VectorStore.new
    rw [if_pos (by simp [hdim])]
    simp
  have hstep : runStep embed (lookupExisting (Dir.lookup ⟨[f], some c0⟩))
      ⟨VectorStore.new 3072, Dir.lookup ⟨[f], some c0⟩, 0⟩ f
      = some ⟨⟨3072, [embed ch]⟩, some (c0 ++ lookupLine f.path 1), 1⟩ := by
    unfold runStep
    rw [hexist, if_neg (List.not_mem_nil _)]
    unfold processOneFile
    simp only []
    rw [hch, if_neg (by simp)]
    rw [hadd]
    simp [add_to_faiss_lookup]
  rw [hstep]
  simp [List.foldlM_nil]

/-! ## C1: manifest total versus vector store size -/

/-- C1 counterexample: a second run over an already-indexed directory
(file `f`, manifest `"f 1\n"`) completes with an empty, freshly created
vector store, while the loaded manifest entries sum to 1: the claimed
equality fails for this completed run. -/
theorem C1_counterexample :
    setup_vector_store zeroEmbed
        ⟨[⟨strChars "f", strChars "hello"⟩], some (strChars "f 1\n")⟩ =
      some ⟨VectorStore.new 3072, some (strChars "f 1\n"), 0⟩ ∧
    sumChunkCounts (lookupEntries (strChars "f 1\n")) ≠
      (VectorStore.new 3072).len :=
  ⟨by decide, by decide⟩

/-- C1 (amended): after a completed indexing run whose manifest file
existed but held no well-formed entry (and was empty or newline-terminated)
and whose file paths are all nonempty and whitespace-free, the sum of
`chunk_count` over the loaded manifest entries equals `len()` of the
vector store used by that run. -/
theorem C1_sum_matches_len (embed : Str → List Int) (d : Dir)
    (st : RunState) (c0 c1 : Str)
    (hrun : setup_vector_store embed d = some st)
    (hc0 : d.lookup = some c0) (he0 : goodEnd c0)
    (hent : lookupEntries c0 = [])
    (hpaths : ∀ f ∈ d.files, goodPath f.path)
    (hc1 : st.lookup = some c1) :
    sumChunkCounts (lookupEntries c1) = st.vector_store.len := by
  rw [setup_eq] at hrun
  obtain ⟨c1', h1, h2, h3, h4, h5⟩ := runFold_spec embed
    (lookupExisting d.lookup) d.files _ st c0 hrun hc0 he0 hpaths
    (by rw [hc0]; exact fun p hp => hp)
  obtain rfl : c1' = c1 := Option.some.inj (h1.symm.trans hc1)
  rw [hent] at h5
  simp only [VectorStore.len, VectorStore.new, List.length_nil,
    sumChunkCounts, List.map_nil, List.sum_nil] at h5 ⊢
  omega

/-- Witness for C1 (amended): the fresh run over directory `{f}` with
manifest `""`. -/
theorem C1_sum_matches_len_witness :
    sumChunkCounts (lookupEntries (strChars "f 1\n")) =
      (⟨⟨3072, [zeroEmbed (strChars "hi")]⟩, some (strChars "f 1\n"), 1⟩
        : RunState).vector_store.len :=
  C1_sum_matches_len zeroEmbed ⟨[⟨strChars "f", strChars "hi"⟩], some []⟩
    ⟨⟨3072, [zeroEmbed (strChars "hi")]⟩, some (strChars "f 1\n"), 1⟩
    [] (strChars "f 1\n")
    (by
      have h := setup_one_file_fresh ⟨strChars "f", strChars "hi"⟩ []
        (strChars "hi") (by decide) (by decide) zeroEmbed (zeroEmbed_dim _)
      rw [h]
      have : ([] : Str) ++ lookupLine (strChars "f") 1 = strChars "f 1\n" := by
        decide
      rw [this])
    rfl (Or.inl rfl) (by decide)
    (by
      intro f hf
      rw [List.mem_singleton] at hf
      subst hf
      exact ⟨by decide, by decide⟩)
    rfl

/-! ## C6: idempotence of a second run -/

/-- C6 counterexample: for the directory holding the single file `"a b"`
(a path with a space) and an initially empty manifest file, the first run
embeds once; the immediately following second run over the unchanged
directory embeds again (its `embed_calls` is 1, not 0), because the
written record `"a b 1\n"` splits into three parts and is not loaded back
as an entry. -/
theorem C6_counterexample :
    setup_vector_store zeroEmbed
        ⟨[⟨strChars "a b", strChars "x"⟩], some []⟩ =
      some ⟨⟨3072, [zeroEmbed (strChars "x")]⟩, some (strChars "a b 1\n"), 1⟩ ∧
    setup_vector_store zeroEmbed
        ⟨[⟨strChars "a b", strChars "x"⟩], some (strChars "a b 1\n")⟩ =
      some ⟨⟨3072, [zeroEmbed (strChars "x")]⟩,
        some (strChars "a b 1\na b 1\n"), 1⟩ ∧
    (⟨⟨3072, [zeroEmbed (strChars "x")]⟩, some (strChars "a b 1\na b 1\n"), 1⟩
      : RunState).embed_calls ≠ 0 := by
  refine ⟨?_, ?_, by decide⟩
  · have h := setup_one_file_fresh ⟨strChars "a b", strChars "x"⟩ []
      (strChars "x") (by decide) (by decide) zeroEmbed (zeroEmbed_dim _)
    rw [h]
    have heq : ([] : Str) ++ lookupLine (strChars "a b") 1
        = strChars "a b 1\n" := by decide
    rw [heq]
  · have h := setup_one_file_fresh ⟨strChars "a b", strChars "x"⟩
      (strChars "a b 1\n") (strChars "x") (by decide) (by decide) zeroEmbed
      (zeroEmbed_dim _)
    rw [h]
    have heq : strChars "a b 1\n" ++ lookupLine (strChars "a b") 1
        = strChars "a b 1\na b 1\n" := by decide
    rw [heq]

/-- C6 (amended): starting from a manifest file that exists and is empty
or newline-terminated, over files whose paths are nonempty and
whitespace-free, a completed run followed by a second run over the
unchanged directory makes the second run a no-op: zero embedding calls,
nothing added to its vector store, manifest unchanged. -/
theorem C6_second_run_no_embedding (embed : Str → List Int) (d : Dir)
    (st1 : RunState) (c0 : Str)
    (hrun : setup_vector_store embed d = some st1)
    (hc0 : d.lookup = some c0) (he0 : goodEnd c0)
    (hpaths : ∀ f ∈ d.files, goodPath f.path) :
    setup_vector_store embed ⟨d.files, st1.lookup⟩ =
      some ⟨VectorStore.new 3072, st1.lookup, 0⟩ := by
  rw [setup_eq] at hrun
  obtain ⟨c1, h1, h2, h3, h4, h5⟩ := runFold_spec embed
    (lookupExisting d.lookup) d.files _ st1 c0 hrun hc0 he0 hpaths
    (by rw [hc0]; exact fun p hp => hp)
  rw [setup_eq]
  show d.files.foldlM (runStep embed (lookupExisting st1.lookup))
    ⟨VectorStore.new 3072, st1.lookup, 0⟩ = _
  rw [h1]
  apply runFold_skip_all
  intro f hf
  by_cases hch : chunk_text f.text = []
  · exact Or.inl hch
  · exact Or.inr (h4 f hf hch)

/-- Witness for C6 (amended): second run over the single-file directory
`{f}` after the fresh run recorded `"f 1\n"`. -/
theorem C6_second_run_no_embedding_witness :
    setup_vector_store zeroEmbed
        ⟨[⟨strChars "f", strChars "hi"⟩], some (strChars "f 1\n")⟩ =
      some ⟨VectorStore.new 3072, some (strChars "f 1\n"), 0⟩ := by
  have h := C6_second_run_no_embedding zeroEmbed
    ⟨[⟨strChars "f", strChars "hi"⟩], some []⟩
    ⟨⟨3072, [zeroEmbed (strChars "hi")]⟩, some (strChars "f 1\n"), 1⟩ []
    (by
      have h0 := setup_one_file_fresh ⟨strChars "f", strChars "hi"⟩ []
        (strChars "hi") (by decide) (by decide) zeroEmbed (zeroEmbed_dim _)
      rw [h0]
      have : ([] : Str) ++ lookupLine (strChars "f") 1 = strChars "f 1\n" := by
        decide
      rw [this])
    rfl (Or.inl rfl)
    (by
      intro f hf
      rw [List.mem_singleton] at hf
      subst hf
      exact ⟨by decide, by decide⟩)
  exact h

/-! ## C7: the chunk resolver is total on the index range -/

theorem sumChunkCounts_cons (e : Str × Nat) (es : List (Str × Nat)) :
    sumChunkCounts (e :: es) = e.2 + sumChunkCounts es := by
  simp [sumChunkCounts]

theorem getChunkGo_cons (d : Dir) (name : Str) (cnt : Nat)
    (rest : List (Str × Nat)) (idx : Nat) :
    getChunkGo d ((name, cnt) :: rest) idx =
      if idx < cnt then
        match process_file d name with
        | none => none
        | some chunks =>
          if h : idx < chunks.length then some (some (chunks.get ⟨idx, h⟩))
          else some none
      else getChunkGo d rest (idx - cnt) := rfl

/-- The entry walk of `get_chunk`: with a consistent manifest it never
panics, and yields a chunk exactly on indices below the entry total. -/
theorem getChunkGo_spec (d : Dir) (es : List (Str × Nat)) :
    ∀ i : Nat,
      (∀ e ∈ es, ∃ cs, process_file d e.1 = some cs ∧ cs.length = e.2) →
      getChunkGo d es i ≠ none ∧
      ((getChunkGo d es i).getD none).isSome
        = decide (i < sumChunkCounts es) := by
  induction es with
  | nil =>
    intro i h
    refine ⟨by simp [getChunkGo], ?_⟩
    simp [getChunkGo, sumChunkCounts]
  | cons e rest ih =>
    intro i hcons
    obtain ⟨cs, hcs, hlen⟩ := hcons e (List.mem_cons_self e rest)
    obtain ⟨name, cnt⟩ := e
    rw [getChunkGo_cons, sumChunkCounts_cons]
    by_cases hi : i < cnt
    · rw [if_pos hi, hcs]
      simp only at hlen ⊢
      have hi2 : i < cs.length := by omega
      rw [dif_pos hi2]
      refine ⟨by simp, ?_⟩
      have hlt : i < cnt + sumChunkCounts rest := by omega
      simp [hlt]
    · rw [if_neg hi]
      obtain ⟨h1, h2⟩ := ih (i - cnt)
        (fun e he => hcons e (List.mem_cons_of_mem _ he))
      refine ⟨h1, ?_⟩
      rw [h2]
      simp only at hlen ⊢
      simp only [decide_eq_decide]
      omega

/-- C7: over an indexed directory whose files still chunk to the recorded
counts, `get_chunk` never panics and returns a chunk text exactly for the
global indices `i < total_chunks`, nothing for `i ≥ total_chunks`. -/
theorem C7_resolver_total_range (d : Dir) (c : Str)
    (hc : d.lookup = some c)
    (hcons : ∀ e ∈ lookupEntries c,
      ∃ cs, process_file d e.1 = some cs ∧ cs.length = e.2)
    (i : Nat) :
    get_chunk d i ≠ none ∧
    ((get_chunk d i).getD none).isSome
      = decide (i < sumChunkCounts (lookupEntries c)) := by
  unfold get_chunk
  rw [hc]
  exact getChunkGo_spec d (lookupEntries c) i hcons

/-- Witness for C7 at the directory `{f ↦ "hi"}` with manifest `"f 1\n"`
and index 0. -/
theorem C7_resolver_total_range_witness :
    get_chunk ⟨[⟨strChars "f", strChars "hi"⟩], some (strChars "f 1\n")⟩ 0
      ≠ none ∧
    ((get_chunk ⟨[⟨strChars "f", strChars "hi"⟩],
        some (strChars "f 1\n")⟩ 0).getD none).isSome
      = decide (0 < sumChunkCounts (lookupEntries (strChars "f 1\n"))) :=
  C7_resolver_total_range
    ⟨[⟨strChars "f", strChars "hi"⟩], some (strChars "f 1\n")⟩
    (strChars "f 1\n") rfl
    (by
      intro e he
      rw [show lookupEntries (strChars "f 1\n") = [(strChars "f", 1)]
        from by decide] at he
      rw [List.mem_singleton] at he
      subst he
      exact ⟨[strChars "hi"], by decide, by decide⟩)
    0

/-! ## C2: the query path -/

/-- C2: `query_vector_store` never yields results — let alone ranked chunk
texts.  It searches a freshly created empty index, faiss pads all five
labels with the invalid id, and `i.get().unwrap()` panics on the first
one (it also never consults `get_chunk` at all). -/
theorem C2_query_always_panics (embed_query : Str → List Int) (q : Str)
    (d : Dir) : query_vector_store embed_query q d = none := by
  unfold query_vector_store
  by_cases h : (embed_query q).length = 3072
  · have hq : (VectorStore.new 3072).query (embed_query q) 5
        = some (List.replicate 5 0, List.replicate 5 none) := by
      unfold VectorStore.query VectorStore.new
      rw [if_pos h]
      simp [sortBy]
    simp only []
    rw [hq]
    simp [List.mapM, List.mapM.loop]
  · have hq : (VectorStore.new 3072).query (embed_query q) 5 = none := by
      unfold VectorStore.query VectorStore.new
      rw [if_neg h]
    simp only []
    rw [hq]
    rfl

/-! ## Sanity checks of the embedding on concrete inputs -/
example : lines (strChars "a\nb\n") = [strChars "a", strChars "b"] := by decide
example : lines (strChars "a\r\nb") = [strChars "a", strChars "b"] := by decide
example : lines (strChars "") = [] := by decide
example : lines (strChars "\n") = [[]] := by decide
example : splitWhitespace (strChars "  a b  1 ") =
    [strChars "a", strChars "b", strChars "1"] := by decide
example : natToChars 0 = ['0'] := by decide
example : natToChars 123 = ['1', '2', '3'] := by decide
example : parseNat (strChars "123") = some 123 := by decide
example : parseNat (strChars "") = none := by decide
example : chunk_text (strChars "hi\nyo") = [strChars "hiyo"] := by decide
example : lookupEntries (strChars "f 1\nbad\ng 2\n") =
    [(strChars "f", 1), (strChars "g", 2)] := by decide
example : existingFilesOf (strChars "a b\n") = [strChars "a"] := by decide
example : add_to_faiss_lookup (some []) 2 (strChars "f") =
    some (strChars "f 2\n") := by decide
example : add_to_faiss_lookup none 2 (strChars "f") = none := by decide
example :
    setup_vector_store (fun _ => List.replicate 3072 0)
      ⟨[⟨strChars "f", strChars "hi"⟩], some (strChars "f 1\n")⟩ =
    some ⟨VectorStore.new 3072, some (strChars "f 1\n"), 0⟩ := by decide
example : get_chunk ⟨[⟨strChars "f", strChars "hi"⟩],
    some (strChars "f 1\n")⟩ 0 = some (some (strChars "hi")) := by decide
example : get_chunk ⟨[⟨strChars "f", strChars "hi"⟩],
    some (strChars "f 1\n")⟩ 1 = some none := by decide

end Fisher
